import Mathlib

/-!
Shallow embedding of the π-estimation notebook (`piday-code.ipynb`).

The notebook builds a quantum-phase-estimation circuit with helper functions
`qft_dagger` and `qpe_pre`, runs it through `run_job` (transpile → assemble →
run → monitor → result → counts) and post-processes the counts in
`get_pi_estimate`.  Circuits are embedded as a structure carrying the qubit
and classical-bit counts together with the emitted gate list; controlled-phase
angles are recorded symbolically as `a·π + b` with rational `a`, `b`; the
arithmetic of the post-processing is embedded over `ℚ` with Python's checked
division modelled by `pdiv`; the external SDK is a record of fallible
operations returning `Except`.
-/

/-- A controlled-phase angle `piCoeff · π + const` (rational coefficients),
recording symbolically the float angles the notebook passes to `cp`. -/
structure PhaseAngle where
  piCoeff : ℚ
  const : ℚ
deriving DecidableEq, Repr

/-- Gates emitted on a circuit by the notebook's helper functions. -/
inductive Gate where
  | h (q : ℕ)
  | x (q : ℕ)
  | cp (θ : PhaseAngle) (c t : ℕ)
  | swap (a b : ℕ)
  | barrier
  | measure (q c : ℕ)
deriving DecidableEq, Repr

/-- The qubit indices a gate acts on (classical bits excluded). -/
def Gate.touched : Gate → List ℕ
  | .h q => [q]
  | .x q => [q]
  | .cp _ c t => [c, t]
  | .swap a b => [a, b]
  | .barrier => []
  | .measure q _ => [q]

/-- `True` exactly on controlled-phase gates. -/
def Gate.isCp : Gate → Bool
  | .cp _ _ _ => true
  | _ => false

/-- `qft_dagger(circ_, n_qubits)`: swap qubit `q` with `n_qubits-q-1` for
`q < int(n_qubits/2)`, then for each `j < n_qubits` the gates
`cp(-π/2^(j-m), m, j)` for `m < j` followed by `h(j)`. -/
def qft_dagger (n_qubits : ℕ) : List Gate :=
  ((List.range (n_qubits / 2)).map (fun qubit => Gate.swap qubit (n_qubits - qubit - 1))) ++
    ((List.range n_qubits).map (fun j =>
      ((List.range j).map (fun m => Gate.cp ⟨-1 / 2 ^ (j - m), 0⟩ m j)) ++ [Gate.h j])).flatten

/-- `qpe_pre(circ_, n_qubits)`: `h` on qubits `0..n_qubits-1`, `x` on qubit
`n_qubits`, then for `x` in `reversed(range(n_qubits))` the gate
`cp(1, n_qubits-1-x, n_qubits)` repeated `2^(n_qubits-1-x)` times. -/
def qpe_pre (n_qubits : ℕ) : List Gate :=
  ((List.range n_qubits).map Gate.h) ++ [Gate.x n_qubits] ++
    (((List.range n_qubits).reverse).map (fun x =>
      List.replicate (2 ^ (n_qubits - 1 - x))
        (Gate.cp ⟨0, 1⟩ (n_qubits - 1 - x) n_qubits))).flatten

/-- A circuit: `QuantumCircuit(num_qubits, num_clbits)` plus the gates applied. -/
structure QuantumCircuit where
  num_qubits : ℕ
  num_clbits : ℕ
  gates : List Gate
deriving DecidableEq, Repr

/-- The circuit `get_pi_estimate(n_qubits)` builds:
`QuantumCircuit(n_qubits + 1, n_qubits)`, then `qpe_pre`, a barrier,
`qft_dagger`, a barrier, and `measure(range(n_qubits), range(n_qubits))`. -/
def get_pi_circuit (n_qubits : ℕ) : QuantumCircuit :=
  { num_qubits := n_qubits + 1
    num_clbits := n_qubits
    gates := qpe_pre n_qubits ++ [Gate.barrier] ++ qft_dagger n_qubits ++ [Gate.barrier] ++
      ((List.range n_qubits).map (fun q => Gate.measure q q)) }

/-- Python's `/`: raises `ZeroDivisionError` on a zero divisor, embedded as
`none`; otherwise exact rational division. -/
def pdiv (a b : ℚ) : Option ℚ :=
  if b = 0 then none else some (a / b)

/-- `int(s, 2)`: parse a bit-string (most significant bit first). -/
def binToNat (s : List Bool) : ℕ :=
  s.foldl (fun acc b => 2 * acc + (if b then 1 else 0)) 0

/-- `max(counts, key=counts.get)`: the first entry of maximal count; on an
empty mapping Python raises `ValueError`, embedded as `none`. -/
def maxKey : List (List Bool × ℕ) → Option (List Bool × ℕ)
  | [] => none
  | p :: ps => some (ps.foldl (fun best q => if best.2 < q.2 then q else best) p)

/-- The arithmetic tail of `get_pi_estimate`:
`theta = m / 2**n_qubits` followed by `1. / (2 * theta)`. -/
def estimate_from_m (n_qubits m : ℕ) : Option ℚ :=
  (pdiv (m : ℚ) (2 ^ n_qubits)).bind (fun theta => pdiv 1 (2 * theta))

/-- The closed-form value `1 / (2 * (m / 2**n_qubits))` of the estimate. -/
def pi_formula (n_qubits m : ℕ) : ℚ :=
  1 / (2 * ((m : ℚ) / 2 ^ n_qubits))

/-- The post-processing of `get_pi_estimate`: take the most frequent
bit-string, parse it with `int(_, 2)`, and apply the `theta` pipeline. -/
def post_process (n_qubits : ℕ) (counts : List (List Bool × ℕ)) : Option ℚ :=
  (maxKey counts).bind (fun p => estimate_from_m n_qubits (binToNat p.1))

/-- The external quantum SDK consumed by `run_job`, as a record of fallible
operations: `transpile(circ, backend, optimization_level)`,
`assemble(t_circ, shots)`, `backend.run(qobj)`, `job_monitor(job)`,
`job.result()` and `.get_counts()`.  Every stage may fail with an error `E`
of the SDK's choosing; the notebook neither catches nor translates it. -/
structure SDK (E Qobj Job Res : Type) where
  transpile : QuantumCircuit → ℕ → Except E QuantumCircuit
  assemble : QuantumCircuit → ℕ → Except E Qobj
  run : Qobj → Except E Job
  job_monitor : Job → Except E Unit
  result : Job → Except E Res
  get_counts : Res → Except E (List (List Bool × ℕ))

/-- `run_job(circ, backend, shots, optimization_level)`: transpile, assemble,
run, monitor, then fetch the counts; each SDK failure propagates. -/
def run_job {E Q J R : Type} (sdk : SDK E Q J R) (circ : QuantumCircuit)
    (shots optimization_level : ℕ) : Except E (List (List Bool × ℕ)) := do
  let t_circ ← sdk.transpile circ optimization_level
  let qobj ← sdk.assemble t_circ shots
  let job ← sdk.run qobj
  let _ ← sdk.job_monitor job
  let res ← sdk.result job
  sdk.get_counts res

/-- `get_pi_estimate(n_qubits)`: build the circuit, run the job with
`shots=10000, optimization_level=0`, then post-process.  An SDK failure is
`Except.error`; a Python runtime failure of the post-processing
(empty counts, division by zero) is `Except.ok none`. -/
def get_pi_estimate {E Q J R : Type} (sdk : SDK E Q J R) (n_qubits : ℕ) :
    Except E (Option ℚ) :=
  (run_job sdk (get_pi_circuit n_qubits) 10000 0).map (post_process n_qubits)

/-- Modelled from the spec: under the noiseless-simulation assumption the
expected most-frequent measurement for `n` qubits is the integer nearest to
`2^n/(2π)` (the simulator itself is external SDK code absent from the
repository).  `m` is that nearest integer when `2^n/(2π) ∈ [m-1/2, m+1/2)`. -/
def isExpectedMeasurement (n m : ℕ) : Prop :=
  (m : ℝ) - 1 / 2 ≤ 2 ^ n / (2 * Real.pi) ∧ 2 ^ n / (2 * Real.pi) < (m : ℝ) + 1 / 2

/-- Modelled from the spec: the counts mapping the external backend returns
for a circuit with `num_clbits` classical bits and `shots` shots — keys are
bit-strings of length `num_clbits`, counts are naturals summing to `shots`,
keys are distinct. -/
def isBackendCounts (num_clbits shots : ℕ) (counts : List (List Bool × ℕ)) : Prop :=
  (∀ p ∈ counts, p.1.length = num_clbits) ∧
    (counts.map Prod.snd).sum = shots ∧
    counts.Pairwise (fun p q => p.1 ≠ q.1)

/-- `k` is the unique most-frequent bit-string of `counts`: some entry `(k, c)`
strictly dominates every entry with a different key. -/
def isUniqueMax (counts : List (List Bool × ℕ)) (k : List Bool) : Prop :=
  ∃ c, (k, c) ∈ counts ∧ ∀ q ∈ counts, q.1 ≠ k → q.2 < c

section Helpers

/-- Iterating over `reversed(range(n))` and re-indexing by `n-1-x` is the same
as iterating over `range(n)` directly. -/
lemma reverse_range_map {α : Type} (n : ℕ) (f : ℕ → α) :
    ((List.range n).reverse).map (fun x => f (n - 1 - x)) = (List.range n).map f := by
  conv_lhs => rw [List.range_eq_range', List.reverse_range']
  rw [List.map_map]
  refine List.map_congr_left ?_
  intro x hx
  have hxn : x < n := List.mem_range.mp hx
  simp only [Function.comp_apply]
  congr 1
  omega

/-- Geometric sum: `2^0 + ⋯ + 2^(n-1) = 2^n - 1`. -/
lemma sum_range_two_pow (n : ℕ) :
    ((List.range n).map (fun c => 2 ^ c)).sum = 2 ^ n - 1 := by
  induction n with
  | zero => simp
  | succ n ih =>
      rw [List.range_succ, List.map_append, List.sum_append, ih]
      have h1 : 1 ≤ 2 ^ n := Nat.one_le_two_pow
      have h2 : 2 ^ (n + 1) = 2 * 2 ^ n := by rw [pow_succ]; ring
      simp only [List.map_cons, List.map_nil, List.sum_cons, List.sum_nil]
      omega

/-- The running maximum of the `maxKey` fold is one of the candidates. -/
lemma maxKey_fold_mem (ps : List (List Bool × ℕ)) (p : List Bool × ℕ) :
    ps.foldl (fun best q => if best.2 < q.2 then q else best) p ∈ p :: ps := by
  induction ps generalizing p with
  | nil => simp
  | cons q qs ih =>
      simp only [List.foldl_cons]
      rcases List.mem_cons.mp (ih (if p.2 < q.2 then q else p)) with h | h
      · rw [h]
        by_cases hpq : p.2 < q.2 <;> simp [hpq]
      · exact List.mem_cons_of_mem _ (List.mem_cons_of_mem _ h)

/-- The running maximum of the `maxKey` fold dominates every candidate. -/
lemma maxKey_fold_ge (ps : List (List Bool × ℕ)) (p : List Bool × ℕ) :
    ∀ q ∈ p :: ps, q.2 ≤ (ps.foldl (fun best r => if best.2 < r.2 then r else best) p).2 := by
  induction ps generalizing p with
  | nil => simp
  | cons r rs ih =>
      intro q hq
      simp only [List.foldl_cons]
      have hhead : p.2 ≤ (if p.2 < r.2 then r else p).2 := by
        by_cases hpr : p.2 < r.2 <;> simp [hpr] <;> omega
      have hsecond : r.2 ≤ (if p.2 < r.2 then r else p).2 := by
        by_cases hpr : p.2 < r.2 <;> simp [hpr] <;> omega
      have hres := ih (if p.2 < r.2 then r else p)
      rcases List.mem_cons.mp hq with hq | hq
      · subst hq
        exact le_trans hhead (hres _ (List.mem_cons_self _ _))
      · rcases List.mem_cons.mp hq with hq | hq
        · subst hq
          exact le_trans hsecond (hres _ (List.mem_cons_self _ _))
        · exact hres _ (List.mem_cons_of_mem _ hq)

/-- `maxKey` of a unique-max counts mapping returns that key. -/
lemma maxKey_of_uniqueMax (counts : List (List Bool × ℕ)) (k : List Bool)
    (h : isUniqueMax counts k) : ∃ c, maxKey counts = some (k, c) := by
  obtain ⟨c, hmem, hdom⟩ := h
  match counts, hmem with
  | p :: ps, hmem =>
    set res := ps.foldl (fun best q => if best.2 < q.2 then q else best) p with hres
    have hin : res ∈ p :: ps := maxKey_fold_mem ps p
    have hge : ∀ q ∈ p :: ps, q.2 ≤ res.2 := maxKey_fold_ge ps p
    have hkey : res.1 = k := by
      by_contra hne
      have h1 : res.2 < c := hdom res hin hne
      have h2 : c ≤ res.2 := hge (k, c) hmem
      omega
    refine ⟨res.2, ?_⟩
    simp only [maxKey]
    rw [← hres, ← hkey]

/-- A bit-string of zeros parses to the integer `0`. -/
lemma binToNat_all_false (s : List Bool) (h : ∀ b ∈ s, b = false) :
    binToNat s = 0 := by
  induction s with
  | nil => rfl
  | cons b bs ih =>
      have hb : b = false := h b (List.mem_cons_self _ _)
      subst hb
      simp only [binToNat, List.foldl_cons, if_neg Bool.false_ne_true]
      exact ih (fun b hb => h b (List.mem_cons_of_mem _ hb))

end Helpers

section MoreHelpers

/-- Pin the expected measurement to a concrete integer `k` using the rational
π bounds `3.141592 < π < 3.141593`: the hypotheses place `2^n/(2π)` inside
`[k - 1/2, k + 1/2)`, and the half-open windows of two integers are disjoint. -/
lemma expected_pin (n m k : ℕ) (hk : 1 ≤ k) (hm : isExpectedMeasurement n m)
    (hlo : ((k : ℝ) - 1 / 2) * 6.283186 ≤ 2 ^ n)
    (hhi : (2 ^ n : ℝ) < ((k : ℝ) + 1 / 2) * 6.283184) : m = k := by
  have hπ1 : (3.141592 : ℝ) < Real.pi := Real.pi_gt_d6
  have hπ2 : Real.pi < 3.141593 := Real.pi_lt_d6
  have hπ0 : (0 : ℝ) < 2 * Real.pi := by positivity
  have hk1 : (1 : ℝ) ≤ (k : ℝ) := by exact_mod_cast hk
  have hx1 : (k : ℝ) - 1 / 2 ≤ 2 ^ n / (2 * Real.pi) := by
    rw [le_div_iff₀ hπ0]
    nlinarith
  have hx2 : (2 ^ n : ℝ) / (2 * Real.pi) < (k : ℝ) + 1 / 2 := by
    rw [div_lt_iff₀ hπ0]
    nlinarith
  obtain ⟨hm1, hm2⟩ := hm
  have hA : (m : ℝ) < (k : ℝ) + 1 := by linarith
  have hB : (k : ℝ) < (m : ℝ) + 1 := by linarith
  have hA' : m < k + 1 := by exact_mod_cast hA
  have hB' : k < m + 1 := by exact_mod_cast hB
  omega

/-- `qpe_pre` emits no measurement. -/
lemma qpe_pre_no_measure (n q c : ℕ) : Gate.measure q c ∉ qpe_pre n := by
  simp [qpe_pre, List.mem_flatten, List.mem_replicate]

/-- `qft_dagger` emits no measurement. -/
lemma qft_dagger_no_measure (n q c : ℕ) : Gate.measure q c ∉ qft_dagger n := by
  simp [qft_dagger, List.mem_flatten]

/-- The only `measure` gates in the circuit of `get_pi_estimate` are
`measure q q` for `q < n`: the helpers emit none. -/
lemma measure_mem_get_pi_circuit (n q c : ℕ)
    (h : Gate.measure q c ∈ (get_pi_circuit n).gates) : q < n ∧ c = q := by
  simp only [get_pi_circuit] at h
  rcases List.mem_append.mp h with h | h
  · rcases List.mem_append.mp h with h | h
    · rcases List.mem_append.mp h with h | h
      · rcases List.mem_append.mp h with h | h
        · exact absurd h (qpe_pre_no_measure n q c)
        · simp at h
      · exact absurd h (qft_dagger_no_measure n q c)
    · simp at h
  · rcases List.mem_map.mp h with ⟨a, ha, hg⟩
    have ha' := List.mem_range.mp ha
    injection hg with hq hc
    omega

/-- `Except` bind on a success reduces to the continuation. -/
lemma except_bind_ok {E A B : Type} (a : A) (f : A → Except E B) :
    (Except.ok a : Except E A) >>= f = f a := rfl

/-- `Except` bind on an error short-circuits. -/
lemma except_bind_error {E A B : Type} (e : E) (f : A → Except E B) :
    (Except.error e : Except E A) >>= f = Except.error e := rfl

end MoreHelpers

/-- C1: for `0 < m < 2^n` taken as the most frequent measurement, the
`theta = m / 2**n; 1/(2*theta)` pipeline of `get_pi_estimate` succeeds and
returns `1 / (2 * (m / 2**n))`, which equals `2^n / (2*m)`. -/
theorem C1_estimate_formula (n m : ℕ) (h0 : 0 < m) (hlt : m < 2 ^ n) :
    estimate_from_m n m = some (pi_formula n m) ∧
      pi_formula n m = (2 ^ n : ℚ) / (2 * m) := by
  have h2n : ((2 : ℚ) ^ n) ≠ 0 := by positivity
  have hm : ((m : ℚ)) ≠ 0 := Nat.cast_ne_zero.mpr h0.ne'
  have hθ : (2 : ℚ) * ((m : ℚ) / 2 ^ n) ≠ 0 :=
    mul_ne_zero two_ne_zero (div_ne_zero hm h2n)
  constructor
  · simp only [estimate_from_m, pdiv, if_neg h2n, Option.some_bind, if_neg hθ, pi_formula]
  · rw [pi_formula]
    field_simp

/-- C1 witness at `n = 3`, `m = 5`. -/
theorem C1_estimate_formula_witness :
    0 < 5 ∧ 5 < 2 ^ 3 ∧
      (estimate_from_m 3 5 = some (pi_formula 3 5) ∧
        pi_formula 3 5 = (2 ^ 3 : ℚ) / (2 * 5)) :=
  ⟨by norm_num, by norm_num, C1_estimate_formula 3 5 (by norm_num) (by norm_num)⟩

/-- C3: on a non-empty counts mapping, `get_pi_estimate`'s post-processing
selects an entry of maximal count and feeds its bit-string, parsed in base 2,
through the `theta = m/2^n; 1/(2*theta)` inversion. -/
theorem C3_post_process_selects_max (n : ℕ) (counts : List (List Bool × ℕ))
    (hne : counts ≠ []) :
    ∃ p, maxKey counts = some p ∧ p ∈ counts ∧ (∀ q ∈ counts, q.2 ≤ p.2) ∧
      post_process n counts = estimate_from_m n (binToNat p.1) := by
  cases counts with
  | nil => exact absurd rfl hne
  | cons p ps =>
      refine ⟨ps.foldl (fun best q => if best.2 < q.2 then q else best) p, ?_,
        maxKey_fold_mem ps p, maxKey_fold_ge ps p, ?_⟩
      · rfl
      · rfl

/-- C3 witness on a concrete two-entry counts mapping. -/
theorem C3_post_process_selects_max_witness :
    [([true, false], 6), ([false, true], 4)] ≠ ([] : List (List Bool × ℕ)) ∧
      ∃ p, maxKey [([true, false], 6), ([false, true], 4)] = some p ∧
        p ∈ [([true, false], 6), ([false, true], 4)] ∧
        (∀ q ∈ [([true, false], 6), ([false, true], 4)], q.2 ≤ p.2) ∧
        post_process 2 [([true, false], 6), ([false, true], 4)] =
          estimate_from_m 2 (binToNat p.1) :=
  ⟨by simp, C3_post_process_selects_max 2 _ (by simp)⟩

/-- C10: the post-processing is a function of the most frequent bit-string
alone — two counts mappings sharing the same unique most-frequent key give
equal π estimates. -/
theorem C10_estimate_depends_only_on_max (n : ℕ)
    (c1 c2 : List (List Bool × ℕ)) (k : List Bool)
    (h1 : isUniqueMax c1 k) (h2 : isUniqueMax c2 k) :
    post_process n c1 = post_process n c2 := by
  obtain ⟨a, ha⟩ := maxKey_of_uniqueMax c1 k h1
  obtain ⟨b, hb⟩ := maxKey_of_uniqueMax c2 k h2
  simp [post_process, ha, hb]

/-- C10 witness on two concrete mappings with common unique maximum `[true]`. -/
theorem C10_estimate_depends_only_on_max_witness :
    isUniqueMax [([true], 7)] [true] ∧
      isUniqueMax [([true], 3), ([false], 1)] [true] ∧
      post_process 1 [([true], 7)] = post_process 1 [([true], 3), ([false], 1)] := by
  have h1 : isUniqueMax [([true], 7)] [true] := ⟨7, by simp, by decide⟩
  have h2 : isUniqueMax [([true], 3), ([false], 1)] [true] := ⟨3, by simp, by decide⟩
  exact ⟨h1, h2, C10_estimate_depends_only_on_max 1 _ _ [true] h1 h2⟩

/-- C8: when the most frequent bit-string is all zeros, `1/(2*theta)` divides
by zero: the post-processing yields no estimate, and `get_pi_estimate` on a
run producing such counts returns `ok none` rather than an estimate. -/
theorem C8_zero_measurement_fails {E Q J R : Type} (sdk : SDK E Q J R) (n : ℕ)
    (counts : List (List Bool × ℕ)) (p : List Bool × ℕ)
    (hmax : maxKey counts = some p) (hzero : ∀ b ∈ p.1, b = false) :
    post_process n counts = none ∧
      (run_job sdk (get_pi_circuit n) 10000 0 = Except.ok counts →
        get_pi_estimate sdk n = Except.ok none) := by
  have h2n : ((2 : ℚ) ^ n) ≠ 0 := by positivity
  have hm : binToNat p.1 = 0 := binToNat_all_false _ hzero
  have hpp : post_process n counts = none := by
    simp [post_process, hmax, estimate_from_m, hm, pdiv, h2n]
  refine ⟨hpp, fun hr => ?_⟩
  rw [get_pi_estimate, hr]
  show Except.ok (post_process n counts) = Except.ok none
  rw [hpp]

/-- C8 witness: an all-ok SDK whose counts are dominated by the zero string. -/
theorem C8_zero_measurement_fails_witness :
    maxKey [([false, false], 6), ([true, false], 4)] = some ([false, false], 6) ∧
      (∀ b ∈ [false, false], b = false) ∧
      post_process 2 [([false, false], 6), ([true, false], 4)] = none ∧
      get_pi_estimate
        (⟨fun c _ => Except.ok c, fun _ _ => Except.ok (), fun _ => Except.ok (),
          fun _ => Except.ok (), fun _ => Except.ok (),
          fun _ => Except.ok [([false, false], 6), ([true, false], 4)]⟩ :
            SDK ℕ Unit Unit Unit) 2 = Except.ok none := by
  have h := C8_zero_measurement_fails
    (⟨fun c _ => Except.ok c, fun _ _ => Except.ok (), fun _ => Except.ok (),
      fun _ => Except.ok (), fun _ => Except.ok (),
      fun _ => Except.ok [([false, false], 6), ([true, false], 4)]⟩ :
        SDK ℕ Unit Unit Unit) 2
    [([false, false], 6), ([true, false], 4)] ([false, false], 6) rfl (by decide)
  exact ⟨rfl, by decide, h.1, h.2 rfl⟩

/-- C4: `qpe_pre` emits, in order, a Hadamard on each of qubits `0..n-1`, an
`x` on qubit `n`, and then for controls `c = 0, …, n-1` in increasing order
exactly `2^c` gates `cp(1, c, n)`, totalling `2^n - 1` controlled-phase
gates. -/
theorem C4_qpe_pre_layout (n : ℕ) (hn : 1 ≤ n) :
    qpe_pre n = ((List.range n).map Gate.h) ++ [Gate.x n] ++
        ((List.range n).map (fun c => List.replicate (2 ^ c) (Gate.cp ⟨0, 1⟩ c n))).flatten ∧
      (qpe_pre n).countP Gate.isCp = 2 ^ n - 1 := by
  have hjoin := reverse_range_map n
    (fun c => List.replicate (2 ^ c) (Gate.cp ⟨0, 1⟩ c n))
  have hstruct : qpe_pre n = ((List.range n).map Gate.h) ++ [Gate.x n] ++
      ((List.range n).map (fun c => List.replicate (2 ^ c) (Gate.cp ⟨0, 1⟩ c n))).flatten := by
    rw [qpe_pre, hjoin]
  refine ⟨hstruct, ?_⟩
  rw [hstruct]
  simp only [List.countP_append, List.countP_flatten, List.countP_map, List.map_map]
  have hh : (List.range n).countP (Gate.isCp ∘ Gate.h) = 0 := by
    simp [Function.comp_def, Gate.isCp]
  have hx : List.countP Gate.isCp [Gate.x n] = 0 := by
    simp [Gate.isCp]
  have hrep : ∀ c : ℕ,
      (List.replicate (2 ^ c) (Gate.cp ⟨0, 1⟩ c n)).countP Gate.isCp = 2 ^ c := by
    intro c
    simp [List.countP_replicate, Gate.isCp]
  rw [hh, hx]
  have hmap : (List.range n).map
        ((fun l => List.countP Gate.isCp l) ∘ fun c => List.replicate (2 ^ c) (Gate.cp ⟨0, 1⟩ c n)) =
      (List.range n).map (fun c => 2 ^ c) := by
    refine List.map_congr_left ?_
    intro c _
    simp only [Function.comp_apply]
    exact hrep c
  rw [hmap, sum_range_two_pow]
  omega

/-- C4 witness at `n = 2`. -/
theorem C4_qpe_pre_layout_witness :
    1 ≤ 2 ∧
      (qpe_pre 2 = ((List.range 2).map Gate.h) ++ [Gate.x 2] ++
          ((List.range 2).map (fun c => List.replicate (2 ^ c) (Gate.cp ⟨0, 1⟩ c 2))).flatten ∧
        (qpe_pre 2).countP Gate.isCp = 2 ^ 2 - 1) :=
  ⟨by norm_num, C4_qpe_pre_layout 2 (by norm_num)⟩

/-- C5: `qft_dagger` emits `⌊n/2⌋` swaps of qubit `q` with `n-1-q`, then for
each `j < n` the gates `cp(-π/2^(j-m), m, j)` for `m < j` followed by a
Hadamard on `j`; no gate touches a qubit of index `≥ n`. -/
theorem C5_qft_dagger_layout (n : ℕ) :
    qft_dagger n = ((List.range (n / 2)).map (fun q => Gate.swap q (n - 1 - q))) ++
        ((List.range n).map (fun j =>
          ((List.range j).map (fun m => Gate.cp ⟨-1 / 2 ^ (j - m), 0⟩ m j)) ++
            [Gate.h j])).flatten ∧
      ∀ g ∈ qft_dagger n, ∀ q ∈ g.touched, q < n := by
  constructor
  · rw [qft_dagger]
    congr 1
    refine List.map_congr_left ?_
    intro q hq
    have : q < n / 2 := List.mem_range.mp hq
    congr 1
    omega
  · intro g hg q hq
    rw [qft_dagger] at hg
    rcases List.mem_append.mp hg with hg | hg
    · rcases List.mem_map.mp hg with ⟨a, ha, rfl⟩
      have ha' : a < n / 2 := List.mem_range.mp ha
      simp only [Gate.touched, List.mem_cons, List.not_mem_nil, or_false] at hq
      rcases hq with rfl | rfl <;> omega
    · rcases List.mem_flatten.mp hg with ⟨l, hl, hgl⟩
      rcases List.mem_map.mp hl with ⟨j, hj, rfl⟩
      have hj' : j < n := List.mem_range.mp hj
      rcases List.mem_append.mp hgl with hgl | hgl
      · rcases List.mem_map.mp hgl with ⟨m, hm, rfl⟩
        have hm' : m < j := List.mem_range.mp hm
        simp only [Gate.touched, List.mem_cons, List.not_mem_nil, or_false] at hq
        rcases hq with rfl | rfl <;> omega
      · rw [List.mem_singleton.mp hgl] at hq
        simp only [Gate.touched, List.mem_cons, List.not_mem_nil, or_false] at hq
        rcases hq with rfl
        omega

/-- C6: the circuit of `get_pi_estimate` measures exactly qubits `0..n-1`
into the `n`-bit classical register, so every bit-string key of the backend's
counts has length `n` and the counts sum to the 10000 shots requested. -/
theorem C6_counts_invariant (n : ℕ) (counts : List (List Bool × ℕ))
    (h : isBackendCounts (get_pi_circuit n).num_clbits 10000 counts) :
    (∀ p ∈ counts, p.1.length = n) ∧ (counts.map Prod.snd).sum = 10000 ∧
      ∀ q c, Gate.measure q c ∈ (get_pi_circuit n).gates → q < n ∧ c < n := by
  obtain ⟨h1, h2, -⟩ := h
  refine ⟨fun p hp => h1 p hp, h2, fun q c hqc => ?_⟩
  obtain ⟨hq, hc⟩ := measure_mem_get_pi_circuit n q c hqc
  omega

/-- C6 witness at `n = 1` with a single-outcome counts mapping. -/
theorem C6_counts_invariant_witness :
    isBackendCounts (get_pi_circuit 1).num_clbits 10000 [([false], 10000)] ∧
      ((∀ p ∈ [(([false], 10000) : List Bool × ℕ)], p.1.length = 1) ∧
        ([(([false], 10000) : List Bool × ℕ)].map Prod.snd).sum = 10000 ∧
        ∀ q c, Gate.measure q c ∈ (get_pi_circuit 1).gates → q < 1 ∧ c < 1) := by
  have hb : isBackendCounts (get_pi_circuit 1).num_clbits 10000 [([false], 10000)] := by
    refine ⟨?_, ?_, ?_⟩ <;> simp [get_pi_circuit]
  exact ⟨hb, C6_counts_invariant 1 [([false], 10000)] hb⟩

/-- C9: the circuit has `n + 1` qubits but only `n` classical bits, and the
auxiliary eigenstate qubit `n` is never measured. -/
theorem C9_aux_qubit_never_measured (n : ℕ) :
    (get_pi_circuit n).num_qubits = n + 1 ∧ (get_pi_circuit n).num_clbits = n ∧
      ∀ q c, Gate.measure q c ∈ (get_pi_circuit n).gates → q ≠ n := by
  refine ⟨rfl, rfl, fun q c h => ?_⟩
  have := (measure_mem_get_pi_circuit n q c h).1
  omega

/-- C7: neither `run_job` nor `get_pi_estimate` catches or translates
errors — whichever SDK stage fails first, its error is returned unchanged and
no estimate is produced. -/
theorem C7_error_propagation {E Q J R : Type} (sdk : SDK E Q J R) (e : E) :
    (∀ circ shots lvl, sdk.transpile circ lvl = Except.error e →
        run_job sdk circ shots lvl = Except.error e) ∧
      (∀ circ shots lvl t, sdk.transpile circ lvl = Except.ok t →
        sdk.assemble t shots = Except.error e →
        run_job sdk circ shots lvl = Except.error e) ∧
      (∀ circ shots lvl t qo, sdk.transpile circ lvl = Except.ok t →
        sdk.assemble t shots = Except.ok qo → sdk.run qo = Except.error e →
        run_job sdk circ shots lvl = Except.error e) ∧
      (∀ circ shots lvl t qo j, sdk.transpile circ lvl = Except.ok t →
        sdk.assemble t shots = Except.ok qo → sdk.run qo = Except.ok j →
        sdk.job_monitor j = Except.error e →
        run_job sdk circ shots lvl = Except.error e) ∧
      (∀ circ shots lvl t qo j, sdk.transpile circ lvl = Except.ok t →
        sdk.assemble t shots = Except.ok qo → sdk.run qo = Except.ok j →
        sdk.job_monitor j = Except.ok () → sdk.result j = Except.error e →
        run_job sdk circ shots lvl = Except.error e) ∧
      (∀ circ shots lvl t qo j r, sdk.transpile circ lvl = Except.ok t →
        sdk.assemble t shots = Except.ok qo → sdk.run qo = Except.ok j →
        sdk.job_monitor j = Except.ok () → sdk.result j = Except.ok r →
        sdk.get_counts r = Except.error e →
        run_job sdk circ shots lvl = Except.error e) ∧
      ∀ n, run_job sdk (get_pi_circuit n) 10000 0 = Except.error e →
        get_pi_estimate sdk n = Except.error e := by
  refine ⟨?_, ?_, ?_, ?_, ?_, ?_, ?_⟩
  · intro circ shots lvl h1
    simp [run_job, h1, except_bind_ok, except_bind_error]
  · intro circ shots lvl t h1 h2
    simp [run_job, h1, h2, except_bind_ok, except_bind_error]
  · intro circ shots lvl t qo h1 h2 h3
    simp [run_job, h1, h2, h3, except_bind_ok, except_bind_error]
  · intro circ shots lvl t qo j h1 h2 h3 h4
    simp [run_job, h1, h2, h3, h4, except_bind_ok, except_bind_error]
  · intro circ shots lvl t qo j h1 h2 h3 h4 h5
    simp [run_job, h1, h2, h3, h4, h5, except_bind_ok, except_bind_error]
  · intro circ shots lvl t qo j r h1 h2 h3 h4 h5 h6
    simp [run_job, h1, h2, h3, h4, h5, h6, except_bind_ok, except_bind_error]
  · intro n h
    rw [get_pi_estimate, h]
    rfl

/-- C7 witness: an SDK whose transpiler fails with error `7`;
`get_pi_estimate` returns exactly that error. -/
theorem C7_error_propagation_witness :
    get_pi_estimate
      (⟨fun _ _ => Except.error 7, fun _ _ => Except.error 8, fun _ => Except.error 9,
        fun _ => Except.error 10, fun _ => Except.error 11, fun _ => Except.error 12⟩ :
          SDK ℕ Unit Unit Unit) 2 = Except.error 7 := by
  have h := C7_error_propagation
    (⟨fun _ _ => Except.error 7, fun _ _ => Except.error 8, fun _ => Except.error 9,
      fun _ => Except.error 10, fun _ => Except.error 11, fun _ => Except.error 12⟩ :
        SDK ℕ Unit Unit Unit) 7
  exact h.2.2.2.2.2.2 2 (h.1 (get_pi_circuit 2) 10000 0 rfl)

/-- Squared distances compare like absolute distances. -/
lemma abs_sub_le_abs_sub_of_sq (x y c : ℝ) (h : (x - c) ^ 2 ≤ (y - c) ^ 2) :
    |x - c| ≤ |y - c| := by
  rw [← Real.sqrt_sq_eq_abs, ← Real.sqrt_sq_eq_abs]
  exact Real.sqrt_le_sqrt h

/-- C2: for each `n` in the notebook's range `2..12`, with `m`, `m'` the
expected most-frequent measurements for `n` and `n+1` qubits under the
noiseless-simulation assumption, the `(n+1)`-qubit estimate `1/(2*(m'/2^(n+1)))`
is at least as close to π as the `n`-qubit estimate. -/
theorem C2_monotone_convergence (n m m9 : ℕ) (hn : 2 ≤ n) (hn12 : n + 1 ≤ 12)
    (hm : isExpectedMeasurement n m) (hm9 : isExpectedMeasurement (n + 1) m9) :
    |((pi_formula (n + 1) m9 : ℚ) : ℝ) - Real.pi| ≤
      |((pi_formula n m : ℚ) : ℝ) - Real.pi| := by
  have hn11 : n ≤ 11 := by omega
  interval_cases n
  · have e1 : m = 1 := expected_pin 2 m 1 (by norm_num) hm (by norm_num) (by norm_num)
    have e2 : m9 = 1 := expected_pin (2 + 1) m9 1 (by norm_num) hm9 (by norm_num) (by norm_num)
    subst e1
    subst e2
    apply abs_sub_le_abs_sub_of_sq
    have v1 : ((pi_formula 2 1 : ℚ) : ℝ) = 2 := by norm_num [pi_formula]
    have v2 : ((pi_formula (2 + 1) 1 : ℚ) : ℝ) = 4 := by norm_num [pi_formula]
    rw [v1, v2]
    nlinarith [Real.pi_gt_d6, Real.pi_lt_d6]
  · have e1 : m = 1 := expected_pin 3 m 1 (by norm_num) hm (by norm_num) (by norm_num)
    have e2 : m9 = 3 := expected_pin (3 + 1) m9 3 (by norm_num) hm9 (by norm_num) (by norm_num)
    subst e1
    subst e2
    apply abs_sub_le_abs_sub_of_sq
    have v1 : ((pi_formula 3 1 : ℚ) : ℝ) = 4 := by norm_num [pi_formula]
    have v2 : ((pi_formula (3 + 1) 3 : ℚ) : ℝ) = 8 / 3 := by norm_num [pi_formula]
    rw [v1, v2]
    nlinarith [Real.pi_gt_d6, Real.pi_lt_d6]
  · have e1 : m = 3 := expected_pin 4 m 3 (by norm_num) hm (by norm_num) (by norm_num)
    have e2 : m9 = 5 := expected_pin (4 + 1) m9 5 (by norm_num) hm9 (by norm_num) (by norm_num)
    subst e1
    subst e2
    apply abs_sub_le_abs_sub_of_sq
    have v1 : ((pi_formula 4 3 : ℚ) : ℝ) = 8 / 3 := by norm_num [pi_formula]
    have v2 : ((pi_formula (4 + 1) 5 : ℚ) : ℝ) = 16 / 5 := by norm_num [pi_formula]
    rw [v1, v2]
    nlinarith [Real.pi_gt_d6, Real.pi_lt_d6]
  · have e1 : m = 5 := expected_pin 5 m 5 (by norm_num) hm (by norm_num) (by norm_num)
    have e2 : m9 = 10 := expected_pin (5 + 1) m9 10 (by norm_num) hm9 (by norm_num) (by norm_num)
    subst e1
    subst e2
    apply abs_sub_le_abs_sub_of_sq
    have v1 : ((pi_formula 5 5 : ℚ) : ℝ) = 16 / 5 := by norm_num [pi_formula]
    have v2 : ((pi_formula (5 + 1) 10 : ℚ) : ℝ) = 16 / 5 := by norm_num [pi_formula]
    rw [v1, v2]
  · have e1 : m = 10 := expected_pin 6 m 10 (by norm_num) hm (by norm_num) (by norm_num)
    have e2 : m9 = 20 := expected_pin (6 + 1) m9 20 (by norm_num) hm9 (by norm_num) (by norm_num)
    subst e1
    subst e2
    apply abs_sub_le_abs_sub_of_sq
    have v1 : ((pi_formula 6 10 : ℚ) : ℝ) = 16 / 5 := by norm_num [pi_formula]
    have v2 : ((pi_formula (6 + 1) 20 : ℚ) : ℝ) = 16 / 5 := by norm_num [pi_formula]
    rw [v1, v2]
  · have e1 : m = 20 := expected_pin 7 m 20 (by norm_num) hm (by norm_num) (by norm_num)
    have e2 : m9 = 41 := expected_pin (7 + 1) m9 41 (by norm_num) hm9 (by norm_num) (by norm_num)
    subst e1
    subst e2
    apply abs_sub_le_abs_sub_of_sq
    have v1 : ((pi_formula 7 20 : ℚ) : ℝ) = 16 / 5 := by norm_num [pi_formula]
    have v2 : ((pi_formula (7 + 1) 41 : ℚ) : ℝ) = 128 / 41 := by norm_num [pi_formula]
    rw [v1, v2]
    nlinarith [Real.pi_gt_d6, Real.pi_lt_d6]
  · have e1 : m = 41 := expected_pin 8 m 41 (by norm_num) hm (by norm_num) (by norm_num)
    have e2 : m9 = 81 := expected_pin (8 + 1) m9 81 (by norm_num) hm9 (by norm_num) (by norm_num)
    subst e1
    subst e2
    apply abs_sub_le_abs_sub_of_sq
    have v1 : ((pi_formula 8 41 : ℚ) : ℝ) = 128 / 41 := by norm_num [pi_formula]
    have v2 : ((pi_formula (8 + 1) 81 : ℚ) : ℝ) = 256 / 81 := by norm_num [pi_formula]
    rw [v1, v2]
    nlinarith [Real.pi_gt_d6, Real.pi_lt_d6]
  · have e1 : m = 81 := expected_pin 9 m 81 (by norm_num) hm (by norm_num) (by norm_num)
    have e2 : m9 = 163 := expected_pin (9 + 1) m9 163 (by norm_num) hm9 (by norm_num) (by norm_num)
    subst e1
    subst e2
    apply abs_sub_le_abs_sub_of_sq
    have v1 : ((pi_formula 9 81 : ℚ) : ℝ) = 256 / 81 := by norm_num [pi_formula]
    have v2 : ((pi_formula (9 + 1) 163 : ℚ) : ℝ) = 512 / 163 := by norm_num [pi_formula]
    rw [v1, v2]
    nlinarith [Real.pi_gt_d6, Real.pi_lt_d6]
  · have e1 : m = 163 := expected_pin 10 m 163 (by norm_num) hm (by norm_num) (by norm_num)
    have e2 : m9 = 326 := expected_pin (10 + 1) m9 326 (by norm_num) hm9 (by norm_num) (by norm_num)
    subst e1
    subst e2
    apply abs_sub_le_abs_sub_of_sq
    have v1 : ((pi_formula 10 163 : ℚ) : ℝ) = 512 / 163 := by norm_num [pi_formula]
    have v2 : ((pi_formula (10 + 1) 326 : ℚ) : ℝ) = 512 / 163 := by norm_num [pi_formula]
    rw [v1, v2]
  · have e1 : m = 326 := expected_pin 11 m 326 (by norm_num) hm (by norm_num) (by norm_num)
    have e2 : m9 = 652 := expected_pin (11 + 1) m9 652 (by norm_num) hm9 (by norm_num) (by norm_num)
    subst e1
    subst e2
    apply abs_sub_le_abs_sub_of_sq
    have v1 : ((pi_formula 11 326 : ℚ) : ℝ) = 512 / 163 := by norm_num [pi_formula]
    have v2 : ((pi_formula (11 + 1) 652 : ℚ) : ℝ) = 512 / 163 := by norm_num [pi_formula]
    rw [v1, v2]

/-- C2 witness at `n = 2`: the expected measurements are `1` for both 2 and 3
qubits, and the 3-qubit estimate is at least as close to π. -/
theorem C2_monotone_convergence_witness :
    isExpectedMeasurement 2 1 ∧ isExpectedMeasurement 3 1 ∧
      |((pi_formula 3 1 : ℚ) : ℝ) - Real.pi| ≤ |((pi_formula 2 1 : ℚ) : ℝ) - Real.pi| := by
  have h2 : isExpectedMeasurement 2 1 := by
    constructor
    · rw [le_div_iff₀ (by positivity)]
      nlinarith [Real.pi_lt_d6]
    · rw [div_lt_iff₀ (by positivity)]
      nlinarith [Real.pi_gt_d6]
  have h3 : isExpectedMeasurement 3 1 := by
    constructor
    · rw [le_div_iff₀ (by positivity)]
      nlinarith [Real.pi_lt_d6]
    · rw [div_lt_iff₀ (by positivity)]
      nlinarith [Real.pi_gt_d6]
  exact ⟨h2, h3, C2_monotone_convergence 2 1 1 (by norm_num) (by norm_num) h2 h3⟩
